import Mathlib

/-!
Verification development for the `linuxptp-daemon-log-splitter` tool
(`src/main.go`).  The program reads a log stream line by line, scans each
line for run tokens matching the regular expression
`\b[A-Za-z0-9_-]+\.(\d+)\.config\b`, and splits the stream into per-run
output files.  Lines without a token go to a common buffer (backed by the
scratch file `P.common.tmp`) and are broadcast to all open run sinks; a
newly discovered run sink is seeded with the common buffer's current
content.  If no token is ever seen, the common buffer is promoted to
`P.run_unknown.log`.

Two embeddings are developed below:
* a pure state machine (`processLine` / `foldLines`) for the per-line
  classification and routing logic of `main`'s scan loop;
* an effectful model (`runProg`) that also tracks the files on disk, the
  stderr messages and an error-injection oracle, mirroring the `os.Exit(2)`
  error paths (on which Go skips deferred cleanup) and the normal-return
  path (on which the deferred removal of `P.common.tmp` runs).
-/

namespace LogSplit

/-- ASCII word character, as used by the Go regexp word boundary `\b`:
letters, digits and underscore. -/
def isWordChar (c : Char) : Bool := c.isAlpha || c.isDigit || c == '_'

/-- Character allowed in the identifier part of a run token:
the regex character class `[A-Za-z0-9_-]`. -/
def isIdentChar (c : Char) : Bool := isWordChar c || c == '-'

/-- Try to match the run-token pattern `\b[A-Za-z0-9_-]+\.(\d+)\.config\b`
(`runTokenPattern` in `src/main.go`) at the head of `s`.  `prevW` says
whether the character just before `s` is a word character (false at the
start of the line), which decides the leading word boundary.  On success
returns the captured digit run and the characters after the match.
Because `.` is not in the identifier class, the greedy `+` repetitions of
the regex are forced to take maximal runs, so the match at a given
position is unique and a `takeWhile`/`dropWhile` scan is exact. -/
def matchToken (prevW : Bool) (s : List Char) : Option (List Char × List Char) :=
  match s.takeWhile isIdentChar, s.dropWhile isIdentChar with
  | [], _ => none
  | c0 :: _, r1 =>
    if isWordChar c0 == prevW then none
    else
      match r1 with
      | '.' :: r2 =>
        match r2.takeWhile Char.isDigit, r2.dropWhile Char.isDigit with
        | [], _ => none
        | digits, '.' :: 'c' :: 'o' :: 'n' :: 'f' :: 'i' :: 'g' :: r4 =>
          match r4 with
          | [] => some (digits, [])
          | c :: _ => if isWordChar c then none else some (digits, r4)
        | _, _ => none
      | _ => none

/-- Scan a line left to right for all non-overlapping leftmost matches of
the run-token pattern, returning the captured digit runs in match order.
This models Go's `runToken.FindAllStringSubmatch(line, -1)` together with
taking submatch `m[1]` of each match.  The fuel argument is instantiated
with the length of the list, which suffices since every step consumes at
least one character. -/
def scanTokens : Nat → Bool → List Char → List (List Char)
  | 0, _, _ => []
  | _ + 1, _, [] => []
  | fuel + 1, prevW, c :: cs =>
    match matchToken prevW (c :: cs) with
    | some (digits, rest) => digits :: scanTokens fuel true rest
    | none => scanTokens fuel (isWordChar c) cs

/-- The set of distinct run identifiers on one line, as strings
(`runsOnLine` in `src/main.go`, built as a map keyed by `m[1]`).
Duplicate captures on one line collapse; identifiers are the captured
digit strings verbatim, with no normalization. -/
def lineRuns (l : List Char) : List String :=
  ((scanTokens l.length false l).map fun ds => String.mk ds).dedup

/-- Split off the first chunk of a byte stream, up to and including the
first newline (the behaviour of one `bufReader.ReadString.. '\n' ..` call):
returns the chunk and the remaining characters. -/
def breakNl : List Char → List Char × List Char
  | [] => ([], [])
  | c :: cs =>
    if c = '\n' then ([c], cs)
    else
      let p := breakNl cs
      (c :: p.1, p.2)

/-- Fuelled splitting of a stream into chunks; each chunk ends with a
newline except possibly the last, and a trailing empty chunk is not
produced (the Go loop breaks on `err == io.EOF && len(line) == 0`). -/
def readLinesF : Nat → List Char → List (List Char)
  | 0, _ => []
  | _ + 1, [] => []
  | fuel + 1, c :: cs =>
    let p := breakNl (c :: cs)
    p.1 :: readLinesF fuel p.2

/-- Split a stream into the raw chunks returned by successive
`ReadString` calls. -/
def readLines (s : List Char) : List (List Char) := readLinesF s.length s

/-- Normalize one chunk the way the scan loop does before classifying it:
`if len(line) == 0 || line[len(line)-1] != '\n' { line = line + "\n" }`. -/
def ensureNl (l : List Char) : List Char :=
  if l.getLast? = some '\n' then l else l ++ ['\n']

/-- The sequence of newline-terminated lines the program classifies and
routes, derived from the raw input stream. -/
def inputLines (s : List Char) : List (List Char) := (readLines s).map ensureNl

/-- Concatenate lines into file content. -/
def joinLines (ls : List (List Char)) : List Char := ls.flatten

/-- The in-flight state of the scan loop: the common buffer (content of
`P.common.tmp` plus the buffered writer), the open run sinks keyed by run
identifier in creation order, and the `anyRunFound` flag. -/
structure SplitState where
  common : List (List Char)
  sinks : List (String × List (List Char))
  anyRun : Bool

/-- Association-list lookup by key, modelling Go map indexing. -/
def alookup {α : Type} (k : String) : List (String × α) → Option α
  | [] => none
  | p :: ps => if p.1 = k then some p.2 else alookup k ps

/-- Append a no-token line to every currently open run sink
(the `for _, ro := range runOutputs` broadcast). -/
def broadcast (line : List Char) (sinks : List (String × List (List Char))) :
    List (String × List (List Char)) :=
  sinks.map fun p => (p.1, p.2 ++ [line])

/-- Append a line to the sink with key `r`, leaving other sinks alone. -/
def appendToSink (r : String) (line : List Char)
    (sinks : List (String × List (List Char))) : List (String × List (List Char)) :=
  sinks.map fun p => if p.1 = r then (p.1, p.2 ++ [line]) else p

/-- Handle one identifier of a tagged line: `openRun` followed by the
write of the line.  An existing sink just receives the line; a new sink is
created, seeded with the current content of the common buffer, and then
receives the line. -/
def openAndRoute (line : List Char) (st : SplitState) (r : String) : SplitState :=
  match alookup r st.sinks with
  | some _ => { st with sinks := appendToSink r line st.sinks }
  | none => { st with sinks := st.sinks ++ [(r, st.common ++ [line])] }

/-- Process one normalized line, mirroring the body of the scan loop in
`main`: a line with no token is appended to the common buffer and
broadcast to all open sinks; a tagged line sets `anyRunFound` and is
routed to the sink of each distinct identifier on it. -/
def processLine (st : SplitState) (line : List Char) : SplitState :=
  if lineRuns line = [] then
    { st with common := st.common ++ [line], sinks := broadcast line st.sinks }
  else (lineRuns line).foldl (openAndRoute line) { st with anyRun := true }

/-- The state before any line has been read. -/
def startState : SplitState := ⟨[], [], false⟩

/-- Run the scan loop over a list of normalized lines. -/
def foldLines (ls : List (List Char)) : SplitState := ls.foldl processLine startState

/-- Run the whole pipeline on a raw input stream. -/
def processInput (s : List Char) : SplitState := foldLines (inputLines s)

/-- Final content of the sink file `P.run_<r>.log`, when run `r` was
discovered. -/
def sinkFileContent (s : List Char) (r : String) : Option (List Char) :=
  (alookup r (processInput s).sinks).map joinLines

/-- Final content of the fallback file `P.run_unknown.log`, which is
produced (from the common buffer) exactly when no run token was found. -/
def fallbackOf (ls : List (List Char)) : Option (List Char) :=
  if (foldLines ls).anyRun then none else some (joinLines (foldLines ls).common)

/-- Fallback content computed from the raw input stream. -/
def fallbackContent (s : List Char) : Option (List Char) := fallbackOf (inputLines s)

/-- Name of the scratch file backing the common buffer. -/
def tmpPath (p : String) : String := p ++ ".common.tmp"

/-- Name of the fallback output file. -/
def unknownPath (p : String) : String := p ++ ".run_unknown.log"

/-- Name of the sink file for run `r`. -/
def sinkPath (p r : String) : String := p ++ ".run_" ++ r ++ ".log"

/-- Spec-side description of a run sink's content, written from the spec's
words: "the sink for R contains, in order: all no-token lines that
occurred in the stream before R's first occurrence, followed by every line
(token or no-token) that occurred from R's first occurrence onward that
was either no-token or tagged with R".  The boolean argument says whether
R's first occurrence has already been passed. -/
def sinkSpec (r : String) : Bool → List (List Char) → List (List Char)
  | _, [] => []
  | true, l :: ls =>
    if lineRuns l = [] ∨ r ∈ lineRuns l then l :: sinkSpec r true ls
    else sinkSpec r true ls
  | false, l :: ls =>
    if r ∈ lineRuns l then l :: sinkSpec r true ls
    else if lineRuns l = [] then l :: sinkSpec r false ls
    else sinkSpec r false ls

/-- Remove a single trailing newline, for comparing logical line content. -/
def stripNl (l : List Char) : List Char :=
  if l.getLast? = some '\n' then l.dropLast else l

/-- The logical lines of a byte stream: raw chunks with the terminator
stripped. -/
def logicalLines (s : List Char) : List (List Char) := (readLines s).map stripNl

/-- A well-formed stored line: a newline-free body followed by exactly one
terminating newline.  Every line the scan loop stores has this shape. -/
def wfLine (l : List Char) : Prop :=
  ∃ w, (∀ c ∈ w, c ≠ '\n') ∧ l = w ++ ['\n']

/-- Decidable test for a line with no run token. -/
def noTok (l : List Char) : Bool := decide (lineRuns l = [])

/-- Decidable test for a line that belongs in run `r`'s sink: either no
token at all, or tagged with `r`. -/
def globalOr (r : String) (l : List Char) : Bool :=
  noTok l || decide (r ∈ lineRuns l)

/-- The loop invariant of the scan, relating the state to the list of
lines processed so far: the common buffer holds exactly the no-token
lines; the sink keys are distinct; a sink exists for an identifier iff
some processed line carried it; a sink's content is exactly the processed
lines that were no-token or carried its identifier; and `anyRunFound` is
set iff some processed line carried a token. -/
def Inv (ls : List (List Char)) (st : SplitState) : Prop :=
  st.common = ls.filter noTok
  ∧ (st.sinks.map Prod.fst).Nodup
  ∧ (∀ r : String, (alookup r st.sinks).isSome ↔ ∃ l ∈ ls, r ∈ lineRuns l)
  ∧ (∀ (r : String) (c : List (List Char)),
      alookup r st.sinks = some c → c = ls.filter (globalOr r))
  ∧ st.anyRun = ls.any fun l => !(noTok l)

/-!
Effectful model.  `runProg` executes the body of `main` (after flag
parsing) over an input stream, tracking the files on disk, the stderr
messages, and consulting an error-injection oracle `fails : ErrOp → Bool`
at every fallible I/O operation.  A failing operation reproduces the
corresponding `os.Exit(2)` call: the run terminates with exit status 2,
the stderr message of that call site, and the files exactly as they were
(Go does not run deferred functions on `os.Exit`, so the deferred
`os.Remove` of `P.common.tmp` is skipped).  Only a normal return from
`main` runs the deferred removal of the scratch file.
-/

/-- The fallible I/O operations of `main`, in source order.  Indices make
per-line and per-run failures expressible. -/
inductive ErrOp where
  | openInput
  | createCommon
  | readLine (i : Nat)
  | writeCommonLine (i : Nat)
  | writeBroadcast (r : String) (i : Nat)
  | createRunFile (r : String)
  | seedFlush (r : String)
  | seedOpen (r : String)
  | seedCopy (r : String)
  | writeRunLine (r : String) (i : Nat)
  | flushCommonFinal
  | flushRunFinal (r : String)
  | closeRunFinal (r : String)
  | renameUnknown
  | fallbackOpen
  | fallbackCreate
  | fallbackCopy
deriving DecidableEq

/-- Files on disk: an association of file name to content. -/
abbrev Disk := List (String × List Char)

/-- Create or truncate a file (`os.Create`). -/
def setFile (n : String) (v : List Char) : Disk → Disk
  | [] => [(n, v)]
  | p :: ps => if p.1 = n then (n, v) :: ps else p :: setFile n v ps

/-- Append bytes to an existing file (a buffered write, made visible on
disk since every success path flushes). -/
def appendFile (n : String) (v : List Char) (d : Disk) : Disk :=
  d.map fun p => if p.1 = n then (p.1, p.2 ++ v) else p

/-- Remove a file (`os.Remove`); removing an absent file changes nothing. -/
def eraseFile (n : String) (d : Disk) : Disk :=
  d.filter fun p => decide (p.1 ≠ n)

/-- Content of a file on disk. -/
def lookupFile (n : String) (d : Disk) : Option (List Char) := alookup n d

/-- The state of an executing run: disk, stderr so far, open run sinks in
creation order, and the `anyRunFound` flag. -/
structure ExecSt where
  disk : Disk
  msgs : List String
  keys : List String
  anyRun : Bool

/-- What `os.Exit(2)` leaves behind: the stderr messages (ending in the
diagnostic of the failing operation) and the disk as-is. -/
structure FatalSt where
  msgs : List String
  disk : Disk

/-- Consult the oracle for one fallible operation; on failure, abort with
exit diagnostics `msg` appended to stderr. -/
def chk (fails : ErrOp → Bool) (op : ErrOp) (msg : String) (st : ExecSt) :
    Except FatalSt Unit :=
  if fails op then .error ⟨st.msgs ++ [msg], st.disk⟩ else .ok ()

/-- The informational message printed on stderr in the zero-token case
(`"No run tokens found in %s. Wrote all lines to %s"`). -/
def infoMsg (inName outPath : String) : String :=
  "No run tokens found in " ++ inName ++ ". Wrote all lines to " ++ outPath

/-- The `openRun` closure of `main`: look up the sink for `r`, creating it
on first use.  Creation makes the file, flushes the common buffer, opens
the scratch file and copies its content into the new sink; any of those
failures surfaces as the caller's `"error: opening run file for %s"` exit.
A file already created is left on disk if a later seeding step fails
(`f.Close()` does not remove it). -/
def execOpenRun (fails : ErrOp → Bool) (p r : String) (st : ExecSt) :
    Except FatalSt ExecSt :=
  if st.keys.contains r then .ok st
  else do
    chk fails (.createRunFile r) ("error: opening run file for " ++ r) st
    let st1 : ExecSt := { st with disk := setFile (sinkPath p r) [] st.disk }
    chk fails (.seedFlush r) ("error: opening run file for " ++ r) st1
    chk fails (.seedOpen r) ("error: opening run file for " ++ r) st1
    chk fails (.seedCopy r) ("error: opening run file for " ++ r) st1
    let commonNow := (lookupFile (tmpPath p) st1.disk).getD []
    .ok { st1 with
          disk := setFile (sinkPath p r) commonNow st1.disk
          keys := st.keys ++ [r] }

/-- Broadcast a no-token line to the open run sinks. -/
def execBroadcast (fails : ErrOp → Bool) (p : String) (i : Nat) (l : List Char) :
    List String → ExecSt → Except FatalSt ExecSt
  | [], st => .ok st
  | r :: rs, st => do
    chk fails (.writeBroadcast r i) "error: writing run file" st
    execBroadcast fails p i l rs
      { st with disk := appendFile (sinkPath p r) l st.disk }

/-- Route a tagged line to the sink of each of its identifiers, opening
sinks as needed. -/
def execRuns (fails : ErrOp → Bool) (p : String) (i : Nat) (l : List Char) :
    List String → ExecSt → Except FatalSt ExecSt
  | [], st => .ok st
  | r :: rs, st => do
    let st1 ← execOpenRun fails p r st
    chk fails (.writeRunLine r i) ("error: writing run file for " ++ r) st1
    execRuns fails p i l rs
      { st1 with disk := appendFile (sinkPath p r) l st1.disk }

/-- Execute one iteration of the scan loop on the `i`-th line: the read of
the line can fail, then the line is classified and routed as in
`processLine`. -/
def execLine (fails : ErrOp → Bool) (p : String) (i : Nat) (l : List Char)
    (st : ExecSt) : Except FatalSt ExecSt := do
  chk fails (.readLine i) "error: reading input" st
  match lineRuns l with
  | [] => do
    chk fails (.writeCommonLine i) "error: writing common temp file" st
    let st1 : ExecSt := { st with disk := appendFile (tmpPath p) l st.disk }
    execBroadcast fails p i l st1.keys st1
  | runs => execRuns fails p i l runs { st with anyRun := true }

/-- Execute the scan loop over the normalized lines, numbering them from
`i`. -/
def execLines (fails : ErrOp → Bool) (p : String) :
    Nat → List (List Char) → ExecSt → Except FatalSt ExecSt
  | _, [], st => .ok st
  | i, l :: ls, st => do
    let st1 ← execLine fails p i l st
    execLines fails p (i + 1) ls st1

/-- Flush and close every run sink at end of stream. -/
def execFinalize (fails : ErrOp → Bool) :
    List String → ExecSt → Except FatalSt ExecSt
  | [], st => .ok st
  | r :: rs, st => do
    chk fails (.flushRunFinal r) ("error: flushing run file for " ++ r) st
    chk fails (.closeRunFinal r) ("error: closing run file for " ++ r) st
    execFinalize fails rs st

/-- The body of `main` after flag parsing, up to (but not including) the
deferred cleanup: open the input (when a path was given), create the
scratch file, scan the stream, flush and close everything, and in the
zero-token case promote the scratch file to `P.run_unknown.log` by rename,
falling back to copy when the rename fails.  A normal return yields the
final state; an `os.Exit(2)` yields the fatal diagnostics. -/
def runBody (fails : ErrOp → Bool) (fromFile : Bool) (inName p : String)
    (input : List Char) : Except FatalSt ExecSt := do
  if fromFile then
    chk fails .openInput "error: cannot open input file" ⟨[], [], [], false⟩
  chk fails .createCommon "error: cannot create common temp file" ⟨[], [], [], false⟩
  let st0 : ExecSt := ⟨[(tmpPath p, [])], [], [], false⟩
  let ls := inputLines input
  let st1 ← execLines fails p 0 ls st0
  if input = [] ∨ input.getLast? = some '\n' then
    chk fails (.readLine ls.length) "error: reading input" st1
  chk fails .flushCommonFinal "error: flushing common temp file" st1
  let st2 ← execFinalize fails st1.keys st1
  if st2.anyRun then
    .ok st2
  else
    if fails .renameUnknown then do
      chk fails .fallbackOpen "error: opening common temp for copy" st2
      chk fails .fallbackCreate ("error: creating " ++ unknownPath p) st2
      let st3 : ExecSt := { st2 with disk := setFile (unknownPath p) [] st2.disk }
      chk fails .fallbackCopy ("error: copying to " ++ unknownPath p) st3
      let commonNow := (lookupFile (tmpPath p) st3.disk).getD []
      .ok { st3 with
            disk := setFile (unknownPath p) commonNow st3.disk
            msgs := st3.msgs ++ [infoMsg inName (unknownPath p)] }
    else
      let commonNow := (lookupFile (tmpPath p) st2.disk).getD []
      .ok { st2 with
            disk := setFile (unknownPath p) commonNow (eraseFile (tmpPath p) st2.disk)
            msgs := st2.msgs ++ [infoMsg inName (unknownPath p)] }

/-- The observable outcome of a run: exit status, stderr messages, files
left on disk. -/
structure RunResult where
  exitCode : Nat
  msgs : List String
  disk : Disk
deriving DecidableEq

/-- Run the program.  On a normal return of `main` the deferred functions
run, removing the scratch file, and the process exits 0; every error path
goes through `os.Exit(2)`, which skips the deferred cleanup. -/
def runProg (fails : ErrOp → Bool) (fromFile : Bool) (inName p : String)
    (input : List Char) : RunResult :=
  match runBody fails fromFile inName p input with
  | .error e => ⟨2, e.msgs, e.disk⟩
  | .ok st => ⟨0, st.msgs, eraseFile (tmpPath p) st.disk⟩

/-- The oracle under which no I/O operation fails. -/
def noFail : ErrOp → Bool := fun _ => false

/-- Oracle failing exactly one given (index-free) operation. -/
def failOn (tgt : ErrOp) : ErrOp → Bool := fun op => decide (op = tgt)

/-- Oracle under which every read of the input fails. -/
def failReads : ErrOp → Bool := fun op =>
  match op with
  | .readLine _ => true
  | _ => false

/-- Oracle under which every write to the common temp file fails. -/
def failCommonWrites : ErrOp → Bool := fun op =>
  match op with
  | .writeCommonLine _ => true
  | _ => false

/-- Oracle under which every write of a tagged line to its run file
fails. -/
def failRunWrites : ErrOp → Bool := fun op =>
  match op with
  | .writeRunLine _ _ => true
  | _ => false

/-- Oracle under which creating any run file fails. -/
def failRunCreates : ErrOp → Bool := fun op =>
  match op with
  | .createRunFile _ => true
  | _ => false

/-- Oracle under which the final flush of any run file fails. -/
def failRunFlushes : ErrOp → Bool := fun op =>
  match op with
  | .flushRunFinal _ => true
  | _ => false

/-- Oracle under which promoting the common buffer to the fallback file
fails completely: the rename fails and so does the `os.Create` of the
copy fallback. -/
def failPromotion : ErrOp → Bool := fun op =>
  match op with
  | .renameUnknown => true
  | .fallbackCreate => true
  | _ => false

/-!
Lemmas about the pure model.
-/

theorem alookup_broadcast (r : String) (l : List Char)
    (s : List (String × List (List Char))) :
    alookup r (broadcast l s) = (alookup r s).map (fun c => c ++ [l]) := by
  induction s with
  | nil => rfl
  | cons p ps ih =>
    simp only [broadcast, List.map_cons] at ih ⊢
    by_cases h : p.1 = r
    · simp [alookup, h]
    · simp only [alookup, h, if_neg h]
      exact ih

theorem keys_broadcast (l : List Char) (s : List (String × List (List Char))) :
    (broadcast l s).map Prod.fst = s.map Prod.fst := by
  induction s with
  | nil => rfl
  | cons p ps ih =>
    simp only [broadcast, List.map_cons] at ih ⊢
    rw [ih]

theorem alookup_appendToSink_self (r : String) (l : List Char)
    (s : List (String × List (List Char))) :
    alookup r (appendToSink r l s) = (alookup r s).map (fun c => c ++ [l]) := by
  induction s with
  | nil => rfl
  | cons p ps ih =>
    simp only [appendToSink, List.map_cons] at ih ⊢
    by_cases h : p.1 = r
    · simp [alookup, h]
    · simp only [if_neg h, alookup, h, if_false]
      exact ih

theorem alookup_appendToSink_ne (r r' : String) (l : List Char)
    (s : List (String × List (List Char))) (h : r' ≠ r) :
    alookup r' (appendToSink r l s) = alookup r' s := by
  induction s with
  | nil => rfl
  | cons p ps ih =>
    simp only [appendToSink, List.map_cons] at ih ⊢
    by_cases hp : p.1 = r
    · simp [alookup, hp, ih, if_neg (Ne.symm h)]
    · simp only [if_neg hp, alookup]
      by_cases hq : p.1 = r'
      · simp [hq]
      · simp [hq, ih]

theorem keys_appendToSink (r : String) (l : List Char)
    (s : List (String × List (List Char))) :
    (appendToSink r l s).map Prod.fst = s.map Prod.fst := by
  induction s with
  | nil => rfl
  | cons p ps ih =>
    simp only [appendToSink, List.map_cons] at ih ⊢
    by_cases h : p.1 = r
    · simp [h, ih]
    · simp [if_neg h, ih]

theorem alookup_append_single {α : Type} (r k : String) (v : α)
    (s : List (String × α)) :
    alookup r (s ++ [(k, v)]) =
      match alookup r s with
      | some c => some c
      | none => if k = r then some v else none := by
  induction s with
  | nil => rfl
  | cons p ps ih =>
    by_cases h : p.1 = r
    · simp [alookup, h]
    · simp only [List.cons_append, alookup, h, if_neg h]
      exact ih

theorem alookup_none_iff {α : Type} (r : String) (s : List (String × α)) :
    alookup r s = none ↔ r ∉ s.map Prod.fst := by
  induction s with
  | nil => simp [alookup]
  | cons p ps ih =>
    by_cases h : p.1 = r
    · simp [alookup, h]
    · rw [alookup, if_neg h, ih]
      simp only [List.map_cons, List.mem_cons]
      constructor
      · intro hn hc
        rcases hc with hc | hc
        · exact h hc.symm
        · exact hn hc
      · intro hn hc
        exact hn (Or.inr hc)

theorem globalOr_true_iff (r : String) (l : List Char) :
    globalOr r l = true ↔ (lineRuns l = [] ∨ r ∈ lineRuns l) := by
  simp [globalOr, noTok]

theorem globalOr_false_iff (r : String) (l : List Char) :
    globalOr r l = false ↔ ¬(lineRuns l = [] ∨ r ∈ lineRuns l) := by
  rw [← globalOr_true_iff]
  cases globalOr r l <;> simp

theorem sinkSpec_eq_filter (r : String) (b : Bool) (ls : List (List Char)) :
    sinkSpec r b ls = ls.filter (globalOr r) := by
  induction ls generalizing b with
  | nil => cases b <;> rfl
  | cons l ls ih =>
    cases b with
    | true =>
      by_cases h : lineRuns l = [] ∨ r ∈ lineRuns l
      · have hg : globalOr r l = true := (globalOr_true_iff r l).2 h
        simp [sinkSpec, h, List.filter_cons, hg, ih]
      · have hg : globalOr r l = false := (globalOr_false_iff r l).2 h
        simp [sinkSpec, h, List.filter_cons, hg, ih]
    | false =>
      by_cases h1 : r ∈ lineRuns l
      · have hg : globalOr r l = true := (globalOr_true_iff r l).2 (Or.inr h1)
        simp [sinkSpec, h1, List.filter_cons, hg, ih]
      · by_cases h2 : lineRuns l = []
        · have hg : globalOr r l = true := (globalOr_true_iff r l).2 (Or.inl h2)
          simp [sinkSpec, h1, h2, List.filter_cons, hg, ih]
        · have hg : globalOr r l = false := by
            refine (globalOr_false_iff r l).2 ?_
            intro hc
            rcases hc with hc | hc
            · exact h2 hc
            · exact h1 hc
          simp [sinkSpec, h1, h2, List.filter_cons, hg, ih]

theorem routeFold_spec (line : List Char) (rs : List String) (hnd : rs.Nodup) :
    ∀ st : SplitState,
    (rs.foldl (openAndRoute line) st).common = st.common
    ∧ (rs.foldl (openAndRoute line) st).anyRun = st.anyRun
    ∧ ((st.sinks.map Prod.fst).Nodup →
        ((rs.foldl (openAndRoute line) st).sinks.map Prod.fst).Nodup)
    ∧ (∀ r', r' ∉ rs →
        alookup r' (rs.foldl (openAndRoute line) st).sinks = alookup r' st.sinks)
    ∧ (∀ r', r' ∈ rs →
        alookup r' (rs.foldl (openAndRoute line) st).sinks =
          match alookup r' st.sinks with
          | some c => some (c ++ [line])
          | none => some (st.common ++ [line])) := by
  induction rs with
  | nil =>
    intro st
    refine ⟨rfl, rfl, id, fun _ _ => rfl, fun r' hr' => absurd hr' (List.not_mem_nil r')⟩
  | cons r rest ih =>
    intro st
    obtain ⟨hrn, hrest⟩ := List.nodup_cons.mp hnd
    set st1 := openAndRoute line st r with hst1
    have hc1 : st1.common = st.common := by
      rw [hst1, openAndRoute]
      rcases alookup r st.sinks with _ | c <;> rfl
    have ha1 : st1.anyRun = st.anyRun := by
      rw [hst1, openAndRoute]
      rcases alookup r st.sinks with _ | c <;> rfl
    have hk1 : (st.sinks.map Prod.fst).Nodup → (st1.sinks.map Prod.fst).Nodup := by
      intro hnod
      rw [hst1, openAndRoute]
      rcases h : alookup r st.sinks with _ | c
      · have hnotin : r ∉ st.sinks.map Prod.fst := (alookup_none_iff r st.sinks).mp h
        have hnotin2 : ∀ x : List (List Char), (r, x) ∉ st.sinks := by
          intro x hx
          exact hnotin (List.mem_map_of_mem Prod.fst hx)
        simpa [List.nodup_append] using ⟨hnod, hnotin2⟩
      · simpa [keys_appendToSink] using hnod
    have hlr : alookup r st1.sinks =
        match alookup r st.sinks with
        | some c => some (c ++ [line])
        | none => some (st.common ++ [line]) := by
      rw [hst1, openAndRoute]
      rcases h : alookup r st.sinks with _ | c
      · rw [alookup_append_single, h]
        simp
      · rw [alookup_appendToSink_self, h]
        rfl
    have hlne : ∀ r'', r'' ≠ r → alookup r'' st1.sinks = alookup r'' st.sinks := by
      intro r'' hne
      rw [hst1, openAndRoute]
      rcases h : alookup r st.sinks with _ | c
      · rw [alookup_append_single]
        rcases h2 : alookup r'' st.sinks with _ | c'
        · simp [Ne.symm hne]
        · rfl
      · exact alookup_appendToSink_ne r r'' line st.sinks hne
    obtain ⟨c2, a2, k2, ne2, mem2⟩ := ih hrest st1
    simp only [List.foldl_cons]
    rw [← hst1]
    refine ⟨by rw [c2, hc1], by rw [a2, ha1], fun hnod => k2 (hk1 hnod), ?_, ?_⟩
    · intro r' hr'
      have hr'r : r' ≠ r := fun hh => hr' (hh ▸ List.mem_cons_self r rest)
      have hr'rest : r' ∉ rest := fun hh => hr' (List.mem_cons_of_mem r hh)
      rw [ne2 r' hr'rest, hlne r' hr'r]
    · intro r' hr'
      rcases List.mem_cons.mp hr' with hr'r | hr'rest
      · subst hr'r
        rw [ne2 r' hrn, hlr]
      · have hr'ne : r' ≠ r := fun hh => hrn (hh ▸ hr'rest)
        rw [mem2 r' hr'rest, hlne r' hr'ne, hc1]

theorem exists_mem_append_singleton (P : List Char → Prop) (ls : List (List Char))
    (l : List Char) :
    (∃ x ∈ ls ++ [l], P x) ↔ (∃ x ∈ ls, P x) ∨ P l := by
  constructor
  · rintro ⟨x, hx, hp⟩
    rcases List.mem_append.mp hx with hx | hx
    · exact Or.inl ⟨x, hx, hp⟩
    · rcases List.mem_singleton.mp hx with rfl
      exact Or.inr hp
  · rintro (⟨x, hx, hp⟩ | hp)
    · exact ⟨x, List.mem_append_left _ hx, hp⟩
    · exact ⟨l, List.mem_append_right _ (List.mem_singleton.mpr rfl), hp⟩

theorem inv_start : Inv [] startState := by
  refine ⟨rfl, List.nodup_nil, ?_, ?_, rfl⟩
  · intro r
    simp [startState, alookup]
  · intro r c h
    simp [startState, alookup] at h

theorem lineRuns_nodup (l : List Char) : (lineRuns l).Nodup := by
  unfold lineRuns
  exact List.nodup_dedup _

theorem inv_step (ls : List (List Char)) (l : List Char) (st : SplitState)
    (h : Inv ls st) : Inv (ls ++ [l]) (processLine st l) := by
  obtain ⟨com, sks, ar⟩ := st
  obtain ⟨hcom, hnod, hmem, hcont, hany⟩ := h
  simp only at hcom hnod hmem hcont hany
  by_cases hr : lineRuns l = []
  · have hnt : noTok l = true := by simp [noTok, hr]
    simp only [processLine, if_pos hr]
    refine ⟨?_, ?_, ?_, ?_, ?_⟩
    · simp only [List.filter_append, List.filter_cons, hnt, hcom, List.filter_nil]
      rfl
    · simpa [keys_broadcast] using hnod
    · intro r
      have hiff : (Option.map (fun c => c ++ [l]) (alookup r sks)).isSome
          = (alookup r sks).isSome := by
        rcases alookup r sks with _ | c0 <;> rfl
      rw [alookup_broadcast, hiff]
      simp only [exists_mem_append_singleton (fun x => r ∈ lineRuns x) ls l, hr,
        List.not_mem_nil, or_false]
      exact hmem r
    · intro r c hc
      simp only [alookup_broadcast] at hc
      rcases h2 : alookup r sks with _ | c0 <;> rw [h2] at hc
      · simp at hc
      · have hc' : c = c0 ++ [l] := by simpa using hc.symm
        have hg : globalOr r l = true := by simp [globalOr, hnt]
        rw [hc', hcont r c0 h2, List.filter_append, List.filter_cons, hg]
        simp
    · simp only [List.any_append, List.any_cons, hnt, hany]
      simp
  · have hnt : noTok l = false := by simp [noTok, hr]
    have hg1 : ∀ r : String, r ∈ lineRuns l → globalOr r l = true := by
      intro r hrm
      simp [globalOr, hrm]
    have hg0 : ∀ r : String, r ∉ lineRuns l → globalOr r l = false := by
      intro r hrm
      simp [globalOr, noTok, hr, hrm]
    obtain ⟨c2, a2, k2, ne2, mem2⟩ :=
      routeFold_spec l (lineRuns l) (lineRuns_nodup l) ⟨com, sks, true⟩
    have hps : processLine ⟨com, sks, ar⟩ l =
        (lineRuns l).foldl (openAndRoute l) ⟨com, sks, true⟩ := by
      simp [processLine, hr]
    rw [hps]
    refine ⟨?_, ?_, ?_, ?_, ?_⟩
    · rw [c2, List.filter_append, List.filter_cons, hnt]
      simpa using hcom
    · exact k2 hnod
    · intro r
      by_cases hrm : r ∈ lineRuns l
      · rw [mem2 r hrm]
        have hex : ∃ x ∈ ls ++ [l], r ∈ lineRuns x :=
          ⟨l, List.mem_append_right _ (List.mem_singleton.mpr rfl), hrm⟩
        rcases h2 : alookup r sks with _ | c0
        · simpa using hex
        · simpa using hex
      · rw [ne2 r hrm]
        simp only [hmem r,
          exists_mem_append_singleton (fun x => r ∈ lineRuns x) ls l, hrm, or_false]
    · intro r c hc
      by_cases hrm : r ∈ lineRuns l
      · rw [mem2 r hrm] at hc
        rcases h2 : alookup r sks with _ | c0 <;> rw [h2] at hc <;>
          simp only [Option.some.injEq] at hc
        · have hnone : ∀ x ∈ ls, r ∉ lineRuns x := by
            intro x hx hcontra
            have hs := (hmem r).mpr ⟨x, hx, hcontra⟩
            rw [h2] at hs
            simp at hs
          have hfe : List.filter (globalOr r) ls = List.filter noTok ls := by
            apply List.filter_congr
            intro x hx
            simp [globalOr, hnone x hx]
          rw [← hc, hcom, List.filter_append, List.filter_cons, hg1 r hrm, hfe]
          simp
        · rw [← hc, hcont r c0 h2, List.filter_append, List.filter_cons, hg1 r hrm]
          simp
      · rw [ne2 r hrm] at hc
        rw [hcont r c hc, List.filter_append, List.filter_cons, hg0 r hrm]
        simp
    · rw [a2]
      simp [List.any_append, hnt]

theorem inv_foldLines (ls : List (List Char)) : Inv ls (foldLines ls) := by
  induction ls using List.reverseRecOn with
  | nil => exact inv_start
  | append_singleton ls l ih =>
    have hf : foldLines (ls ++ [l]) = processLine (foldLines ls) l := by
      simp [foldLines, List.foldl_append]
    rw [hf]
    exact inv_step ls l (foldLines ls) ih

theorem sinkPath_injective (p r1 r2 : String) (h : sinkPath p r1 = sinkPath p r2) :
    r1 = r2 := by
  have hd : (sinkPath p r1).data = (sinkPath p r2).data := by rw [h]
  simp only [sinkPath, String.data_append, List.append_assoc] at hd
  have h1 := List.append_cancel_left hd
  have h2 := List.append_cancel_left h1
  have h3 := List.append_cancel_right h2
  exact String.ext h3

/-- C1: for every input stream and every run identifier `r` discovered in
it, the finalized content of `r`'s sink file equals the concatenation, in
original order, of all no-token lines before `r`'s first occurrence
followed by every line from `r`'s first occurrence onward that carried no
token or carried `r` (the `sinkSpec` description, taken from the spec's
words). -/
theorem runSink_matches_spec (input : List Char) (r : String)
    (h : ∃ l ∈ inputLines input, r ∈ lineRuns l) :
    sinkFileContent input r = some (joinLines (sinkSpec r false (inputLines input))) := by
  obtain ⟨hcom, hnod, hmem, hcont, hany⟩ := inv_foldLines (inputLines input)
  have hs : (alookup r (foldLines (inputLines input)).sinks).isSome = true :=
    (hmem r).mpr h
  rcases h2 : alookup r (foldLines (inputLines input)).sinks with _ | c
  · rw [h2] at hs
    simp at hs
  · have hc := hcont r c h2
    show (alookup r (foldLines (inputLines input)).sinks).map joinLines = _
    rw [h2, sinkSpec_eq_filter]
    simp [hc]

theorem runSink_matches_spec_witness :
    (∃ l ∈ inputLines ("a\nptp4l.5.config: b\nc\n".toList), "5" ∈ lineRuns l)
    ∧ sinkFileContent ("a\nptp4l.5.config: b\nc\n".toList) "5"
      = some (joinLines (sinkSpec "5" false
          (inputLines ("a\nptp4l.5.config: b\nc\n".toList)))) :=
  ⟨by decide, runSink_matches_spec ("a\nptp4l.5.config: b\nc\n".toList) "5" (by decide)⟩

/-- C3: after any number of steps of the scan, the common buffer holds
exactly the no-token lines seen so far in arrival order; a tagged line is
never in the common buffer; and every line in any run sink either carried
no token or carried that sink's identifier, so an identifier discovered
after a tagged line never receives it unless the line was tagged with it. -/
theorem commonBuffer_invariant (ls : List (List Char)) :
    (foldLines ls).common = ls.filter noTok
    ∧ (∀ l ∈ (foldLines ls).common, lineRuns l = [])
    ∧ (∀ (r : String) (c : List (List Char)),
        alookup r (foldLines ls).sinks = some c →
        ∀ l ∈ c, lineRuns l = [] ∨ r ∈ lineRuns l) := by
  obtain ⟨hcom, hnod, hmem, hcont, hany⟩ := inv_foldLines ls
  refine ⟨hcom, ?_, ?_⟩
  · intro l hl
    rw [hcom] at hl
    have hp := List.of_mem_filter hl
    simpa [noTok] using hp
  · intro r c hc l hl
    rw [hcont r c hc] at hl
    exact (globalOr_true_iff r l).mp (List.of_mem_filter hl)

theorem commonBuffer_invariant_witness :
    lineRuns ("x\n".toList) = [] ∨ "7" ∈ lineRuns ("x\n".toList) :=
  (commonBuffer_invariant ["a ptp4l.7.config\n".toList, "x\n".toList]).2.2 "7"
    (["a ptp4l.7.config\n".toList, "x\n".toList].filter (globalOr "7"))
    (by decide) ("x\n".toList) (by decide)

/-- C5: a line carrying two distinct identifiers is appended exactly once
to each of their sinks, and appears neither in any other run's sink, nor
in the common buffer, nor in the fallback output (which is not produced at
all, since a token was seen). -/
theorem multiTag_routing (ls : List (List Char)) (l : List Char) (r1 r2 : String)
    (h1 : r1 ∈ lineRuns l) (h2 : r2 ∈ lineRuns l) (_hne : r1 ≠ r2)
    (hocc : ls.count l = 1) :
    (∃ c1, alookup r1 (foldLines ls).sinks = some c1 ∧ c1.count l = 1)
    ∧ (∃ c2, alookup r2 (foldLines ls).sinks = some c2 ∧ c2.count l = 1)
    ∧ (∀ (r : String) (c : List (List Char)), r ∉ lineRuns l →
        alookup r (foldLines ls).sinks = some c → l ∉ c)
    ∧ l ∉ (foldLines ls).common
    ∧ fallbackOf ls = none := by
  obtain ⟨hcom, hnod, hmem, hcont, hany⟩ := inv_foldLines ls
  have hl : l ∈ ls := List.count_pos_iff.mp (by rw [hocc]; exact Nat.one_pos)
  have hrt : lineRuns l ≠ [] := List.ne_nil_of_mem h1
  have hnt : noTok l = false := by simp [noTok, hrt]
  have hsink : ∀ r : String, r ∈ lineRuns l →
      ∃ c, alookup r (foldLines ls).sinks = some c ∧ c.count l = 1 := by
    intro r hr
    have hs : (alookup r (foldLines ls).sinks).isSome = true :=
      (hmem r).mpr ⟨l, hl, hr⟩
    rcases hc : alookup r (foldLines ls).sinks with _ | c
    · rw [hc] at hs
      simp at hs
    · refine ⟨c, rfl, ?_⟩
      rw [hcont r c hc]
      have hg : globalOr r l = true := (globalOr_true_iff r l).2 (Or.inr hr)
      rw [List.count_filter hg, hocc]
  refine ⟨hsink r1 h1, hsink r2 h2, ?_, ?_, ?_⟩
  · intro r c hr hc hmemc
    rw [hcont r c hc] at hmemc
    have hg := List.of_mem_filter hmemc
    rcases (globalOr_true_iff r l).mp hg with hg | hg
    · exact hrt hg
    · exact hr hg
  · intro hmemc
    rw [hcom] at hmemc
    have hg := List.of_mem_filter hmemc
    rw [hnt] at hg
    exact Bool.false_ne_true hg
  · have hat : (foldLines ls).anyRun = true := by
      rw [hany]
      exact List.any_eq_true.mpr ⟨l, hl, by simp [hnt]⟩
    simp [fallbackOf, hat]

theorem multiTag_routing_witness :
    ("1" ∈ lineRuns ("a ptp4l.1.config phc2sys.2.config\n".toList)
      ∧ "2" ∈ lineRuns ("a ptp4l.1.config phc2sys.2.config\n".toList)
      ∧ ("1" : String) ≠ "2"
      ∧ ["x\n".toList, "a ptp4l.1.config phc2sys.2.config\n".toList].count
          ("a ptp4l.1.config phc2sys.2.config\n".toList) = 1)
    ∧ fallbackOf ["x\n".toList, "a ptp4l.1.config phc2sys.2.config\n".toList] = none :=
  ⟨by decide,
    (multiTag_routing ["x\n".toList, "a ptp4l.1.config phc2sys.2.config\n".toList]
      ("a ptp4l.1.config phc2sys.2.config\n".toList) "1" "2"
      (by decide) (by decide) (by decide) (by decide)).2.2.2.2⟩

/-- C6: for every input containing at least one valid run token, no
fallback output is produced, and there is exactly one sink per distinct
identifier ever matched: sink keys are distinct, a sink exists for an
identifier iff some line of the input carried it, and distinct identifiers
yield distinct sink file names. -/
theorem token_input_sinks (input : List Char) (p : String)
    (h : ∃ l ∈ inputLines input, lineRuns l ≠ []) :
    fallbackContent input = none
    ∧ ((foldLines (inputLines input)).sinks.map Prod.fst).Nodup
    ∧ (∀ r : String, (alookup r (foldLines (inputLines input)).sinks).isSome = true ↔
        ∃ l ∈ inputLines input, r ∈ lineRuns l)
    ∧ (∀ r1 r2 : String, r1 ≠ r2 → sinkPath p r1 ≠ sinkPath p r2) := by
  obtain ⟨hcom, hnod, hmem, hcont, hany⟩ := inv_foldLines (inputLines input)
  obtain ⟨l, hl, hrt⟩ := h
  have hat : (foldLines (inputLines input)).anyRun = true := by
    rw [hany]
    exact List.any_eq_true.mpr ⟨l, hl, by simp [noTok, hrt]⟩
  refine ⟨?_, hnod, hmem, ?_⟩
  · show fallbackOf (inputLines input) = none
    simp [fallbackOf, hat]
  · intro r1 r2 hne hp
    exact hne (sinkPath_injective p r1 r2 hp)

theorem token_input_sinks_witness :
    (∃ l ∈ inputLines ("ptp4l.1.config: hello\nglobal\n".toList), lineRuns l ≠ [])
    ∧ fallbackContent ("ptp4l.1.config: hello\nglobal\n".toList) = none :=
  ⟨by decide,
    (token_input_sinks ("ptp4l.1.config: hello\nglobal\n".toList) "X" (by decide)).1⟩

theorem matchToken_digits (prevW : Bool) (s digits rest : List Char)
    (h : matchToken prevW s = some (digits, rest)) :
    digits ≠ [] ∧ ∀ c ∈ digits, c.isDigit := by
  unfold matchToken at h
  repeat' split at h
  all_goals first
    | exact Option.noConfusion h
    | (simp only [Option.some.injEq, Prod.mk.injEq] at h
       obtain ⟨hd, hr⟩ := h
       subst hd
       exact ⟨fun hnil => absurd hnil (by assumption),
              fun c hc => List.mem_takeWhile_imp hc⟩)

theorem scanTokens_digits (fuel : Nat) :
    ∀ (prevW : Bool) (s ds : List Char),
      ds ∈ scanTokens fuel prevW s → ds ≠ [] ∧ ∀ c ∈ ds, c.isDigit := by
  induction fuel with
  | zero =>
    intro prevW s ds h
    simp [scanTokens] at h
  | succ n ih =>
    intro prevW s ds h
    cases s with
    | nil => simp [scanTokens] at h
    | cons c cs =>
      rw [scanTokens] at h
      rcases hm : matchToken prevW (c :: cs) with _ | ⟨digits, rest⟩ <;> rw [hm] at h
      · exact ih _ _ _ h
      · rcases List.mem_cons.mp h with rfl | h2
        · exact matchToken_digits prevW (c :: cs) ds rest hm
        · exact ih _ _ _ h2

/-- C4: the token scanner returns the set of distinct digit-run captures
of the non-overlapping matches of `\b[A-Za-z0-9_-]+\.(\d+)\.config\b`:
the returned identifiers are pairwise distinct nonempty digit strings kept
verbatim (leading zeros preserved, so "01" and "1" are different
identifiers and produce separate entries), a token whose middle component
contains a non-digit (`ptp4l.abc.config`) contributes no identifier, and
duplicate captures of the same identifier on one line collapse. -/
theorem tokenScanner_spec :
    (∀ l : List Char, (lineRuns l).Nodup)
    ∧ (∀ l : List Char,
        (lineRuns l).all (fun r => !r.data.isEmpty && r.data.all Char.isDigit) = true)
    ∧ lineRuns ("ptp4l.abc.config: message\n".toList) = []
    ∧ lineRuns ("a.01.config b.1.config\n".toList) = ["01", "1"]
    ∧ ("01" : String) ≠ "1"
    ∧ lineRuns ("ptp4l.1.config ptp4l.1.config\n".toList) = ["1"]
    ∧ lineRuns ("ptp4l.0.config phc2sys.0.config x\n".toList) = ["0"] := by
  refine ⟨lineRuns_nodup, ?_, by decide, by decide, by decide, by decide, by decide⟩
  intro l
  rw [List.all_eq_true]
  intro r hr
  have hr2 : r ∈ (scanTokens l.length false l).map (fun ds => String.mk ds) :=
    List.mem_dedup.mp hr
  obtain ⟨ds, hds, hmk⟩ := List.mem_map.mp hr2
  obtain ⟨hne, hdig⟩ := scanTokens_digits l.length false l ds hds
  rw [← hmk]
  show (!ds.isEmpty && ds.all Char.isDigit) = true
  rw [Bool.and_eq_true, List.all_eq_true]
  constructor
  · cases ds with
    | nil => exact absurd rfl hne
    | cons d ds2 => rfl
  · exact hdig

theorem ensureNl_getLast (l : List Char) : (ensureNl l).getLast? = some '\n' := by
  rw [ensureNl]
  by_cases h : l.getLast? = some '\n'
  · rw [if_pos h]
    exact h
  · rw [if_neg h]
    exact List.getLast?_concat l

/-- C9: every line the program classifies and routes is newline-terminated
(the scan loop appends a newline to the final line when the input lacks
one), and hence every line stored in the common buffer or any run sink is
newline-terminated, so every produced output file is a concatenation of
newline-terminated lines. -/
theorem newline_terminated (input : List Char) :
    (∀ l ∈ inputLines input, l.getLast? = some '\n')
    ∧ (∀ l ∈ (foldLines (inputLines input)).common, l.getLast? = some '\n')
    ∧ (∀ (r : String) (c : List (List Char)),
        alookup r (foldLines (inputLines input)).sinks = some c →
        ∀ l ∈ c, l.getLast? = some '\n') := by
  obtain ⟨hcom, hnod, hmem, hcont, hany⟩ := inv_foldLines (inputLines input)
  have hin : ∀ l ∈ inputLines input, l.getLast? = some '\n' := by
    intro l hl
    obtain ⟨x, _, hx⟩ := List.mem_map.mp hl
    rw [← hx]
    exact ensureNl_getLast x
  refine ⟨hin, ?_, ?_⟩
  · intro l hl
    rw [hcom] at hl
    exact hin l (List.mem_of_mem_filter hl)
  · intro r c hc l hl
    rw [hcont r c hc] at hl
    exact hin l (List.mem_of_mem_filter hl)

theorem newline_terminated_witness :
    ("ptp4l.3.config hello".toList ++ ['\n']).getLast? = some '\n' :=
  (newline_terminated ("x\nptp4l.3.config hello".toList)).1
    ("ptp4l.3.config hello".toList ++ ['\n']) (by decide)

theorem breakNl_append (s : List Char) : (breakNl s).1 ++ (breakNl s).2 = s := by
  induction s with
  | nil => rfl
  | cons c cs ih =>
    by_cases h : c = '\n'
    · simp [breakNl, h]
    · simp only [breakNl, if_neg h]
      simpa using ih

theorem breakNl_fst_cons (c : Char) (cs : List Char) :
    (breakNl (c :: cs)).1 = c :: (if c = '\n' then [] else (breakNl cs).1) := by
  by_cases h : c = '\n' <;> simp [breakNl, h]

theorem breakNl_snd_le (s : List Char) : (breakNl s).2.length ≤ s.length := by
  induction s with
  | nil => exact Nat.le_refl 0
  | cons c cs ih =>
    by_cases h : c = '\n'
    · simp [breakNl, h]
    · simp only [breakNl, if_neg h, List.length_cons]
      exact Nat.le_succ_of_le ih

theorem breakNl_snd_lt (c : Char) (cs : List Char) :
    (breakNl (c :: cs)).2.length ≤ cs.length := by
  by_cases h : c = '\n'
  · simp [breakNl, h]
  · simp only [breakNl, if_neg h]
    exact breakNl_snd_le cs

theorem breakNl_fst_last (s : List Char) (h : (breakNl s).2 ≠ []) :
    (breakNl s).1.getLast? = some '\n' := by
  induction s with
  | nil => exact absurd rfl h
  | cons c cs ih =>
    by_cases hc : c = '\n'
    · simp [breakNl, hc]
    · simp only [breakNl, if_neg hc] at h ⊢
      have h2 := ih h
      have hne : (breakNl cs).1 ≠ [] := by
        cases cs with
        | nil => exact absurd rfl h
        | cons d ds =>
          rw [breakNl_fst_cons]
          exact List.cons_ne_nil _ _
      calc (c :: (breakNl cs).1).getLast?
          = ([c] ++ (breakNl cs).1).getLast? := rfl
        _ = (breakNl cs).1.getLast? := List.getLast?_append_of_ne_nil [c] hne
        _ = some '\n' := h2

theorem breakNl_fst_shape (s : List Char) :
    wfLine (breakNl s).1 ∨ ∀ c ∈ (breakNl s).1, c ≠ '\n' := by
  induction s with
  | nil =>
    right
    intro c hc
    exact absurd hc (List.not_mem_nil c)
  | cons c cs ih =>
    by_cases hc : c = '\n'
    · left
      refine ⟨[], fun x hx => absurd hx (List.not_mem_nil x), ?_⟩
      simp [breakNl, hc]
    · rcases ih with ⟨w, hw, hfst⟩ | hclean
      · left
        refine ⟨c :: w, ?_, ?_⟩
        · intro x hx
          rcases List.mem_cons.mp hx with rfl | hx
          · exact hc
          · exact hw x hx
        · simp only [breakNl, if_neg hc, hfst]
          rfl
      · right
        intro x hx
        simp only [breakNl, if_neg hc] at hx
        rcases List.mem_cons.mp hx with rfl | hx
        · exact hc
        · exact hclean x hx

theorem breakNl_of_clean (w : List Char) (hw : ∀ c ∈ w, c ≠ '\n') (t : List Char) :
    breakNl (w ++ '\n' :: t) = (w ++ ['\n'], t) := by
  induction w with
  | nil => simp [breakNl]
  | cons c cs ih =>
    have hc : c ≠ '\n' := hw c (List.mem_cons_self c cs)
    have ih2 := ih fun x hx => hw x (List.mem_cons_of_mem c hx)
    simp only [List.cons_append, breakNl, if_neg hc]
    rw [show cs.append ('\n' :: t) = cs ++ '\n' :: t from rfl, ih2]

theorem joinLines_cons (x : List Char) (xs : List (List Char)) :
    joinLines (x :: xs) = x ++ joinLines xs := by
  simp [joinLines]

theorem readLinesF_nil (fuel : Nat) : readLinesF fuel [] = [] := by
  cases fuel <;> rfl

theorem joinLines_readLinesF (fuel : Nat) :
    ∀ s : List Char, s.length ≤ fuel → joinLines (readLinesF fuel s) = s := by
  induction fuel with
  | zero =>
    intro s hs
    have hn : s = [] := List.eq_nil_of_length_eq_zero (Nat.le_zero.mp hs)
    subst hn
    rfl
  | succ n ih =>
    intro s hs
    cases s with
    | nil => rfl
    | cons c cs =>
      rw [readLinesF]
      show joinLines ((breakNl (c :: cs)).1 :: readLinesF n (breakNl (c :: cs)).2)
          = c :: cs
      have hlen : (breakNl (c :: cs)).2.length ≤ n := by
        have h1 := breakNl_snd_lt c cs
        simp only [List.length_cons] at hs
        omega
      rw [joinLines_cons, ih _ hlen, breakNl_append]

theorem readLinesF_chunks (fuel : Nat) :
    ∀ s : List Char, ∀ a ∈ readLinesF fuel s, wfLine a ∨ ∀ c ∈ a, c ≠ '\n' := by
  induction fuel with
  | zero =>
    intro s a ha
    simp [readLinesF] at ha
  | succ n ih =>
    intro s a ha
    cases s with
    | nil => simp [readLinesF] at ha
    | cons c cs =>
      rw [readLinesF] at ha
      rcases List.mem_cons.mp ha with rfl | ha
      · exact breakNl_fst_shape (c :: cs)
      · exact ih _ a ha

theorem ensureNl_wf (l : List Char) (h : wfLine l ∨ ∀ c ∈ l, c ≠ '\n') :
    wfLine (ensureNl l) := by
  rcases h with ⟨w, hw, rfl⟩ | hclean
  · rw [ensureNl, if_pos (List.getLast?_concat w)]
    exact ⟨w, hw, rfl⟩
  · by_cases hg : l.getLast? = some '\n'
    · exfalso
      obtain ⟨hl, hx⟩ := List.mem_getLast?_eq_getLast (Option.mem_def.mpr hg)
      have hmem : '\n' ∈ l := by
        rw [hx]
        exact List.getLast_mem hl
      exact hclean '\n' hmem rfl
    · rw [ensureNl, if_neg hg]
      exact ⟨l, hclean, rfl⟩

theorem inputLines_wf (s : List Char) : ∀ l ∈ inputLines s, wfLine l := by
  intro l hl
  obtain ⟨x, hx, rfl⟩ := List.mem_map.mp hl
  exact ensureNl_wf x (readLinesF_chunks s.length s x hx)

theorem readLinesF_join_wf (ls : List (List Char)) (hwf : ∀ l ∈ ls, wfLine l) :
    ∀ fuel : Nat, (joinLines ls).length ≤ fuel → readLinesF fuel (joinLines ls) = ls := by
  induction ls with
  | nil =>
    intro fuel _
    show readLinesF fuel [] = []
    exact readLinesF_nil fuel
  | cons l rest ih =>
    intro fuel hlen
    obtain ⟨w, hw, rfl⟩ := hwf l (List.mem_cons_self l rest)
    have hjoin : joinLines ((w ++ ['\n']) :: rest) = w ++ '\n' :: joinLines rest := by
      rw [joinLines_cons, List.append_assoc]
      rfl
    rw [hjoin] at hlen ⊢
    have hwrest : ∀ l ∈ rest, wfLine l := fun l hl => hwf l (List.mem_cons_of_mem _ hl)
    cases fuel with
    | zero =>
      exfalso
      simp only [List.length_append, List.length_cons] at hlen
      omega
    | succ n =>
      have hlen2 : (joinLines rest).length ≤ n := by
        simp only [List.length_append, List.length_cons] at hlen
        omega
      cases w with
      | nil =>
        simp only [List.nil_append]
        rw [readLinesF]
        have hbr : breakNl ('\n' :: joinLines rest) = (['\n'], joinLines rest) := by
          simp [breakNl]
        rw [hbr]
        exact congrArg _ (ih hwrest n hlen2)
      | cons c w2 =>
        simp only [List.cons_append]
        rw [readLinesF]
        have hbr : breakNl (c :: (w2 ++ '\n' :: joinLines rest))
            = ((c :: w2) ++ ['\n'], joinLines rest) := by
          rw [← List.cons_append]
          exact breakNl_of_clean (c :: w2) hw (joinLines rest)
        rw [hbr]
        rw [ih hwrest n hlen2]
        rfl

theorem stripNl_ensureNl (l : List Char) : stripNl (ensureNl l) = stripNl l := by
  by_cases h : l.getLast? = some '\n'
  · simp [ensureNl, h]
  · simp [ensureNl, stripNl, h, List.getLast?_concat, List.dropLast_concat]

theorem joinLines_ensureNl_readLinesF (fuel : Nat) :
    ∀ s : List Char, s.length ≤ fuel → s ≠ [] →
    joinLines ((readLinesF fuel s).map ensureNl)
      = s ++ (if s.getLast? = some '\n' then [] else ['\n']) := by
  induction fuel with
  | zero =>
    intro s hs hne
    exact absurd (List.eq_nil_of_length_eq_zero (Nat.le_zero.mp hs)) hne
  | succ n ih =>
    intro s hs hne
    cases s with
    | nil => exact absurd rfl hne
    | cons c cs =>
      rw [readLinesF]
      simp only [List.map_cons]
      by_cases hb : (breakNl (c :: cs)).2 = []
      · have ha : (breakNl (c :: cs)).1 = c :: cs := by
          have h1 := breakNl_append (c :: cs)
          rw [hb, List.append_nil] at h1
          exact h1
        rw [hb, readLinesF_nil]
        simp only [List.map_nil]
        rw [joinLines_cons]
        show ensureNl (breakNl (c :: cs)).1 ++ joinLines [] = _
        rw [ha]
        show ensureNl (c :: cs) ++ [] = _
        rw [List.append_nil, ensureNl]
        by_cases hg : (c :: cs).getLast? = some '\n'
        · rw [if_pos hg, if_pos hg, List.append_nil]
        · rw [if_neg hg, if_neg hg]
      · have ha : (breakNl (c :: cs)).1.getLast? = some '\n' := breakNl_fst_last _ hb
        have hlen : (breakNl (c :: cs)).2.length ≤ n := by
          have h1 := breakNl_snd_lt c cs
          simp only [List.length_cons] at hs
          omega
        have hrec := ih (breakNl (c :: cs)).2 hlen hb
        rw [joinLines_cons, hrec, ensureNl, if_pos ha, ← List.append_assoc,
          breakNl_append]
        have hgl : (c :: cs).getLast? = (breakNl (c :: cs)).2.getLast? := by
          conv_lhs => rw [← breakNl_append (c :: cs)]
          exact List.getLast?_append_of_ne_nil _ hb
        rw [hgl]

/-- C2: for an input stream containing zero run tokens, the fallback
output contains every input line in order with its content intact: its
logical lines equal the input's logical lines (no line added, dropped,
reordered or altered, including an unterminated final line), and its bytes
equal the input bytes except that a terminating newline is appended to the
final line when it lacked one. -/
theorem fallback_preserves_input (input : List Char)
    (h : ∀ l ∈ inputLines input, lineRuns l = []) :
    ∃ f, fallbackContent input = some f
      ∧ logicalLines f = logicalLines input
      ∧ f = input ++
          (if input.getLast? = some '\n' ∨ input = [] then [] else ['\n']) := by
  obtain ⟨hcom, hnod, hmem, hcont, hany⟩ := inv_foldLines (inputLines input)
  have hall : ∀ l ∈ inputLines input, noTok l = true := fun l hl => by
    simp [noTok, h l hl]
  have hanyf : (foldLines (inputLines input)).anyRun = false := by
    rw [hany, List.any_eq_false]
    intro l hl
    simp [hall l hl]
  have hcomeq : (foldLines (inputLines input)).common = inputLines input := by
    rw [hcom]
    exact List.filter_eq_self.mpr hall
  refine ⟨joinLines (inputLines input), ?_, ?_, ?_⟩
  · show fallbackOf (inputLines input) = _
    rw [fallbackOf, if_neg (by rw [hanyf]; exact Bool.false_ne_true), hcomeq]
  · have hread : readLines (joinLines (inputLines input)) = inputLines input := by
      rw [readLines]
      exact readLinesF_join_wf (inputLines input) (inputLines_wf input) _ le_rfl
    show (readLines (joinLines (inputLines input))).map stripNl
        = (readLines input).map stripNl
    rw [hread]
    show ((readLines input).map ensureNl).map stripNl = _
    rw [List.map_map]
    exact List.map_congr_left fun x _ => stripNl_ensureNl x
  · by_cases hnil : input = []
    · subst hnil
      simp [inputLines, readLines, readLinesF, joinLines]
    · have hb := joinLines_ensureNl_readLinesF input.length input le_rfl hnil
      show joinLines ((readLinesF input.length input).map ensureNl) = _
      rw [hb]
      by_cases hg : input.getLast? = some '\n'
      · rw [if_pos hg, if_pos (Or.inl hg)]
      · rw [if_neg hg, if_neg ?hcond]
        case hcond =>
          rintro (hc | hc)
          · exact hg hc
          · exact hnil hc

theorem fallback_preserves_input_witness :
    (∀ l ∈ inputLines ("x\nyz".toList), lineRuns l = [])
    ∧ ∃ f, fallbackContent ("x\nyz".toList) = some f
        ∧ logicalLines f = logicalLines ("x\nyz".toList)
        ∧ f = "x\nyz".toList ++
            (if ("x\nyz".toList).getLast? = some '\n' ∨ "x\nyz".toList = ([] : List Char)
             then [] else ['\n']) :=
  ⟨by decide, fallback_preserves_input ("x\nyz".toList) (by decide)⟩

/-!
Claims about the effectful behaviour: the scratch file, the error paths
and the empty input.
-/

theorem lookupFile_eraseFile_self (n : String) (d : Disk) :
    lookupFile n (eraseFile n d) = none := by
  induction d with
  | nil => rfl
  | cons p ps ih =>
    by_cases h : p.1 = n
    · simpa [eraseFile, List.filter_cons, h] using ih
    · simpa [eraseFile, lookupFile, alookup, List.filter_cons, h] using ih

/-- C7 counterexample: an input-read failure makes the program call
`os.Exit(2)`, which skips the deferred cleanup, and the run terminates
fatally with the scratch file `P.common.tmp` still on disk — contradicting
the claim that the scratch file is removed after every run, including runs
that terminate on a fatal I/O error. -/
theorem tmp_left_on_fatal_error :
    (runProg failReads false "stdin" "P" ("a\n".toList)).exitCode = 2
    ∧ lookupFile (tmpPath "P") (runProg failReads false "stdin" "P" ("a\n".toList)).disk
      = some [] := by
  decide

/-- C7 amended: the scratch file `P.common.tmp` is removed (or renamed
away) on every run that terminates successfully, including the fallback
promotion by rename and by copy; on a fatal error the process exits
through `os.Exit(2)` without running the deferred removal, so the scratch
file can remain. -/
theorem tmp_removed_on_success (fails : ErrOp → Bool) (fromFile : Bool)
    (inName p : String) (input : List Char)
    (h : (runProg fails fromFile inName p input).exitCode = 0) :
    lookupFile (tmpPath p) (runProg fails fromFile inName p input).disk = none := by
  unfold runProg at h ⊢
  revert h
  rcases runBody fails fromFile inName p input with e | st
  · intro h
    exact absurd h (Nat.succ_ne_zero 1)
  · intro _
    exact lookupFile_eraseFile_self _ _

theorem tmp_removed_on_success_witness :
    (runProg noFail false "stdin" "P" ("a\n".toList)).exitCode = 0
    ∧ lookupFile (tmpPath "P") (runProg noFail false "stdin" "P" ("a\n".toList)).disk
      = none :=
  ⟨by decide, tmp_removed_on_success noFail false "stdin" "P" ("a\n".toList) (by decide)⟩

/-- C8 counterexample: two different error kinds of the taxonomy — an
input-open failure and an input-read failure — terminate the run with the
same exit status 2 (their stderr diagnostics differ, so they really are
different kinds), contradicting the claim of a distinct exit status per
error kind. -/
theorem same_exit_status_for_different_errors :
    (runProg (failOn .openInput) true "in" "P" ("a\n".toList)).exitCode = 2
    ∧ (runProg failReads true "in" "P" ("a\n".toList)).exitCode = 2
    ∧ (runProg (failOn .openInput) true "in" "P" ("a\n".toList)).msgs
      ≠ (runProg failReads true "in" "P" ("a\n".toList)).msgs := by
  decide

/-- C8 amended: every error condition of the taxonomy (input-open,
input-read, output-create for the common temp file and for run files,
output-write to the common temp file and to run files, output-finalize,
and fallback-promotion failure) is immediately fatal with no retry, and
terminates the run with exit status 2 — the same status for every kind,
not a distinct status per kind — together with a stderr message naming the
failing operation; a failure of the rename alone is recovered by the copy
fallback and the run still succeeds. -/
theorem errors_fatal_exit_two :
    (∀ (fails : ErrOp → Bool) (fromFile : Bool) (inName p : String) (input : List Char),
      (runProg fails fromFile inName p input).exitCode = 0
      ∨ (runProg fails fromFile inName p input).exitCode = 2)
    ∧ runProg (failOn .openInput) true "in" "P" ("a\n".toList)
      = ⟨2, ["error: cannot open input file"], []⟩
    ∧ runProg failReads false "stdin" "P" ("a\nb\n".toList)
      = ⟨2, ["error: reading input"], [(tmpPath "P", [])]⟩
    ∧ runProg (failOn .createCommon) false "stdin" "P" ("a\n".toList)
      = ⟨2, ["error: cannot create common temp file"], []⟩
    ∧ runProg failCommonWrites false "stdin" "P" ("a\n".toList)
      = ⟨2, ["error: writing common temp file"], [(tmpPath "P", [])]⟩
    ∧ runProg failRunCreates false "stdin" "P" ("x ptp4l.1.config\n".toList)
      = ⟨2, ["error: opening run file for 1"], [(tmpPath "P", [])]⟩
    ∧ runProg failRunWrites false "stdin" "P" ("x ptp4l.1.config\n".toList)
      = ⟨2, ["error: writing run file for 1"], [(tmpPath "P", []), (sinkPath "P" "1", [])]⟩
    ∧ runProg (failOn .flushCommonFinal) false "stdin" "P" ("a\n".toList)
      = ⟨2, ["error: flushing common temp file"], [(tmpPath "P", "a\n".toList)]⟩
    ∧ runProg failRunFlushes false "stdin" "P" ("ptp4l.2.config\n".toList)
      = ⟨2, ["error: flushing run file for 2"],
          [(tmpPath "P", []), (sinkPath "P" "2", "ptp4l.2.config\n".toList)]⟩
    ∧ runProg failPromotion false "stdin" "P" ("a\n".toList)
      = ⟨2, ["error: creating " ++ unknownPath "P"], [(tmpPath "P", "a\n".toList)]⟩
    ∧ runProg (failOn .renameUnknown) false "stdin" "P" ("a\n".toList)
      = ⟨0, [infoMsg "stdin" (unknownPath "P")], [(unknownPath "P", "a\n".toList)]⟩ := by
  refine ⟨?_, by decide, by decide, by decide, by decide, by decide, by decide,
    by decide, by decide, by decide, by decide⟩
  intro fails fromFile inName p input
  unfold runProg
  rcases runBody fails fromFile inName p input with e | st
  · right
    rfl
  · left
    rfl

/-- C10: on the empty input stream the program completes successfully
(exit status 0), creates no per-run sink files, produces an empty
`P.run_unknown.log`, and prints on stderr the informational message naming
the input and the fallback output. -/
theorem empty_input_run :
    processInput [] = startState
    ∧ fallbackContent [] = some []
    ∧ runProg noFail false "stdin" "split" []
      = ⟨0, [infoMsg "stdin" (unknownPath "split")], [(unknownPath "split", [])]⟩
    ∧ infoMsg "stdin" (unknownPath "split")
      = "No run tokens found in stdin. Wrote all lines to split.run_unknown.log" := by
  refine ⟨rfl, rfl, by decide, by decide⟩

end LogSplit
